import Mathlib

/-!
Shallow embedding of the order-selection (F-test), robust-fitting and
envelope-building machinery of the FinalFitsRun3 repository
(`src/finalfits/ftest.py`, `src/finalfits/fitting.py`, `src/finalfits/utils.py`,
`src/finalfits/pdfs.py`, and the legacy variant `src/background/fTest.py`).

Numeric values produced by the external fitting engine (ROOT/RooFit) are taken
as oracles: `fitres`/`nllOf` supply the per-order fit outcomes, and `prob`
stands for `ROOT.TMath.Prob`, the chi-square upper-tail probability function.
Python floats are modelled by `ℚ`; Python ints by `ℕ`/`ℤ`; a raised Python
exception is modelled by `Except.error`/`Option.none`.
-/

namespace FinalFits

/-- A fit record as assembled in `getResults` (`src/finalfits/ftest.py`):
`pdf_info = {"pdf": pdf, "order": pdf.order, "dof": pdf.get_dof()}` merged with
`fitting.fit`'s returned `{"twoNLL": ..., "gof_pval": ...}`, plus the later
assignment `results[-1]["ftest_pval"] = ftest_pval`.  The `pdf` object itself
carries no information used by the claims beyond `order` and `dof`. -/
structure FitRec where
  order : ℕ
  dof : ℕ
  twoNLL : ℚ
  gof_pval : ℚ
  ftest_pval : ℚ
deriving DecidableEq

instance : Inhabited FitRec := ⟨⟨0, 0, 0, 0, 0⟩⟩

/-- Default `gof_threshold` of `shouldKeepGoing`/`filterByGof` (0.01). -/
def gof_threshold_default : ℚ := mkRat 1 100

/-- Default `ftest_threshold` of `shouldKeepGoing`/`filterByFtest` (0.05). -/
def ftest_threshold_default : ℚ := mkRat 1 20

/-- `shouldKeepGoing` from `src/finalfits/ftest.py` (identical code also in
`src/background/fTest.py`).  The Python function mutates its argument
(`del results[-1]`) in the overshoot branch, so the model returns the possibly
shortened list alongside the boolean. -/
def shouldKeepGoing (results : List FitRec) (do_all_orders : Bool) (max_dof : ℕ)
    (gof_threshold ftest_threshold : ℚ) : Bool × List FitRec :=
  match results.getLast? with
  | none => (true, results)
  | some r =>
    if r.dof = max_dof then (false, results)
    else if max_dof < r.dof then (false, results.dropLast)
    else if do_all_orders = false ∧ ftest_threshold < r.ftest_pval ∧
        gof_threshold < r.gof_pval then (false, results)
    else (true, results)

/-- The part of a `fitting.fit` result used by `getResults`: the dictionary
`{"twoNLL": twoNLL, "gof_pval": gof_pval}`.  In `getResults` these values come
from the numerical optimiser, so they enter the model as an oracle indexed by
the order being fitted. -/
structure FitOut where
  twoNLL : ℚ
  gof_pval : ℚ
deriving DecidableEq

/-- One iteration of the `while` body of `getResults` in
`src/finalfits/ftest.py`: build `pdf_info | fit_result`, append it, then set
`ftest_pval` to `0` for the first record and otherwise to
`ROOT.TMath.Prob(dchi2, results[-1]["dof"] - results[-2]["dof"])` with
`dchi2 = results[-2]["twoNLL"] - results[-1]["twoNLL"]` clamped at `0`.
`fitres order` is the oracle for `fitting.fit` at this order and
`doffn order` for `pdf.get_dof()` of the family member of this order.
`ftestOf` is the `ftest_pval` computation (`0` exactly when the new record is
the first, i.e. `len(results) == 1` after the append). -/
def ftestOf (prob : ℚ → ℤ → ℚ) (results : List FitRec) (newrec : FitRec) : ℚ :=
  match results.getLast? with
  | none => 0
  | some prev =>
    let dchi2 := prev.twoNLL - newrec.twoNLL
    let dchi2 := if dchi2 < 0 then 0 else dchi2
    prob dchi2 ((newrec.dof : ℤ) - (prev.dof : ℤ))

/-- The record appended by one loop iteration, with its `ftest_pval` set. -/
def appendRecord (fitres : ℕ → FitOut) (doffn : ℕ → ℕ) (prob : ℚ → ℤ → ℚ)
    (results : List FitRec) (order : ℕ) : List FitRec :=
  let fo := fitres order
  let newrec : FitRec := ⟨order, doffn order, fo.twoNLL, fo.gof_pval, 0⟩
  results ++ [{ newrec with ftest_pval := ftestOf prob results newrec }]

/-- The `while shouldKeepGoing(...)` loop of `getResults`
(`src/finalfits/ftest.py`), with explicit fuel to make the recursion
structural; `none` means the fuel ran out before the loop stopped, `some rs`
that the loop stopped and the function returned `rs`.  `getResults` calls
`shouldKeepGoing` with its default thresholds. -/
def getResultsAux (fitres : ℕ → FitOut) (doffn : ℕ → ℕ) (prob : ℚ → ℤ → ℚ)
    (do_all_orders : Bool) (max_dof : ℕ) :
    ℕ → ℕ → List FitRec → Option (List FitRec)
  | 0, _, _ => none
  | fuel + 1, order, results =>
    match shouldKeepGoing results do_all_orders max_dof gof_threshold_default
        ftest_threshold_default with
    | (false, results') => some results'
    | (true, _) =>
      getResultsAux fitres doffn prob do_all_orders max_dof fuel (order + 1)
        (appendRecord fitres doffn prob results order)

/-- `getResults` from `src/finalfits/ftest.py`: `results = []`, `order = 1`,
then the `while` loop.  (The `plotFamily` call has no effect on the returned
list.) -/
def getResults (fitres : ℕ → FitOut) (doffn : ℕ → ℕ) (prob : ℚ → ℤ → ℚ)
    (do_all_orders : Bool) (max_dof : ℕ) (fuel : ℕ) : Option (List FitRec) :=
  getResultsAux fitres doffn prob do_all_orders max_dof fuel 1 []

/-- One iteration of the `while` body of the legacy `getResults` in
`src/background/fTest.py`: `fitFunction` returns a record whose `ftest_pval`
is already `0`; then, only when `len(results) > 1`, the last record's
`ftest_pval` is overwritten with
`ROOT.TMath.Prob(dchi2, results[-1]["order"] - results[-2]["order"])` — note
the *order* difference, not the *dof* difference. -/
def bgAppendRecord (fitres : ℕ → FitOut) (doffn : ℕ → ℕ) (prob : ℚ → ℤ → ℚ)
    (results : List FitRec) (order : ℕ) : List FitRec :=
  let fo := fitres order
  let newrec : FitRec := ⟨order, doffn order, fo.twoNLL, fo.gof_pval, 0⟩
  match results.getLast? with
  | none => results ++ [newrec]
  | some prev =>
    let dchi2 := prev.twoNLL - newrec.twoNLL
    let dchi2 := if dchi2 < 0 then 0 else dchi2
    let fp := prob dchi2 ((newrec.order : ℤ) - (prev.order : ℤ))
    results ++ [{ newrec with ftest_pval := fp }]

/-- The `while` loop of the legacy `getResults` (`src/background/fTest.py`);
its `shouldKeepGoing` is textually the same as in `src/finalfits/ftest.py`. -/
def bgGetResultsAux (fitres : ℕ → FitOut) (doffn : ℕ → ℕ) (prob : ℚ → ℤ → ℚ)
    (do_all_orders : Bool) (max_dof : ℕ) :
    ℕ → ℕ → List FitRec → Option (List FitRec)
  | 0, _, _ => none
  | fuel + 1, order, results =>
    match shouldKeepGoing results do_all_orders max_dof gof_threshold_default
        ftest_threshold_default with
    | (false, results') => some results'
    | (true, _) =>
      bgGetResultsAux fitres doffn prob do_all_orders max_dof fuel (order + 1)
        (bgAppendRecord fitres doffn prob results order)

/-- `getResults` from `src/background/fTest.py`. -/
def bgGetResults (fitres : ℕ → FitOut) (doffn : ℕ → ℕ) (prob : ℚ → ℤ → ℚ)
    (do_all_orders : Bool) (max_dof : ℕ) (fuel : ℕ) : Option (List FitRec) :=
  bgGetResultsAux fitres doffn prob do_all_orders max_dof fuel 1 []


/-- The relation the spec states between consecutive records of a Family
Result Sequence: the later record's `ftest_pval` is the chi-square upper-tail
probability of the (clamped) improvement `Δ(2·NLL)`, at `ndf` equal to the
*dof* difference of the two records. -/
def ftestOk (prob : ℚ → ℤ → ℚ) (prev cur : FitRec) : Prop :=
  cur.ftest_pval = prob (max 0 (prev.twoNLL - cur.twoNLL))
    ((cur.dof : ℤ) - (prev.dof : ℤ))

/-- The relation actually maintained by the legacy `getResults`
(`src/background/fTest.py`): as `ftestOk` but with `ndf` the *order*
difference of the two records. -/
def bgFtestOk (prob : ℚ → ℤ → ℚ) (prev cur : FitRec) : Prop :=
  cur.ftest_pval = prob (max 0 (prev.twoNLL - cur.twoNLL))
    ((cur.order : ℤ) - (prev.order : ℤ))

/-- `filterByGof` from `src/finalfits/ftest.py`: per family keep the records
with `res["gof_pval"] > gof_threshold`, and if any are kept set the first
kept record's `ftest_pval` to `0.0`.  The `results` mapping (a Python dict in
insertion order) is modelled as a list of families. -/
def filterByGof (results : List (List FitRec)) (gof_threshold : ℚ) :
    List (List FitRec) :=
  results.map (fun fam =>
    match fam.filter (fun r => decide (gof_threshold < r.gof_pval)) with
    | [] => []
    | r :: rs => { r with ftest_pval := 0 } :: rs)

/-- `filterByFtest` from `src/finalfits/ftest.py`: per family keep the records
with `res["ftest_pval"] < ftest_threshold`. -/
def filterByFtest (results : List (List FitRec)) (ftest_threshold : ℚ) :
    List (List FitRec) :=
  results.map (fun fam => fam.filter (fun r => decide (r.ftest_pval < ftest_threshold)))

/-- `filterResults` from `src/finalfits/ftest.py`, at the default thresholds it
is called with from `main`. -/
def filterResults (results : List (List FitRec)) : List (List FitRec) :=
  filterByFtest (filterByGof results gof_threshold_default) ftest_threshold_default

/-- `createEnvelope` from `src/finalfits/ftest.py`.  `flattened_results` and
`gofs` are two separate comprehensions over the same `results` mapping; the
`RooMultiPdf` receives the pdfs of `flattened_results` in that order, and
`pdfIndex.setIndex(gofs.index(max(gofs)))` sets the active index.  Python's
`max` on an empty list raises `ValueError`, modelled by `none`.  The envelope
is modelled as the flattened record list (standing for the pdf list) together
with the active index. -/
def createEnvelope (results : List (List FitRec)) : Option (List FitRec × ℕ) :=
  let flattened_results := results.flatten
  let gofs := (results.map (fun fam => fam.map FitRec.gof_pval)).flatten
  match gofs.max? with
  | none => none
  | some m => some (flattened_results, gofs.indexOf m)

/-- The list `nlls` accumulated by one round of `robust_fit`
(`src/finalfits/fitting.py`): `n_fits` minimised NLL values, one per random
initialisation.  `nllOf n i` is the oracle for the NLL found by fit `i` of a
round of `n` fits. -/
def nllsOf (nllOf : ℕ → ℕ → ℚ) (n_fits : ℕ) : List ℚ :=
  (List.range n_fits).map (nllOf n_fits)

/-- The fixed `max_diff` tolerance of `robust_fit` (0.01). -/
def max_diff : ℚ := mkRat 1 100

/-- The exception message raised by `robust_fit` when halted at the ceiling. -/
def unstableMsg (n_fits max_n_fits : ℕ) : String :=
  "Fit is unstable. Tried " ++ toString n_fits ++
    " from random places and did not find acceptable convergence. " ++
    "Halted because we reached maximum number of fits (" ++
    toString max_n_fits ++ ")."

/-- `robust_fit` from `src/finalfits/fitting.py`.  One round does `n_fits`
fits, keeps the best parameters (a side effect on the pdf object, not part of
this model), splits the NLLs into `nlls[:n_fits//2]` and `nlls[n_fits//2:]`,
and compares the two halves' minima; Python's `min` of an empty list raises
`ValueError` (only possible when `n_fits < 2`).  If the difference exceeds
`max_diff` the round is unstable: with `recursive` and `n_fits < max_n_fits`
the round is redone with `n_fits * 2` (the recursive call's exceptions
propagate, its normal return returns normally), otherwise the
`unstableMsg` exception is raised.  A stable round returns normally. -/
def robust_fit (nllOf : ℕ → ℕ → ℚ) (max_n_fits : ℕ) (recursive : Bool)
    (n_fits : ℕ) : Except String Unit :=
  let nlls := nllsOf nllOf n_fits
  match h1 : (nlls.take (n_fits / 2)).min? with
  | none => Except.error "ValueError: min() arg is an empty sequence"
  | some nll1 =>
    match (nlls.drop (n_fits / 2)).min? with
    | none => Except.error "ValueError: min() arg is an empty sequence"
    | some nll2 =>
      if |nll1 - nll2| > max_diff then
        if recursive = true ∧ n_fits < max_n_fits then
          robust_fit nllOf max_n_fits true (n_fits * 2)
        else Except.error (unstableMsg n_fits max_n_fits)
      else Except.ok ()
termination_by max_n_fits - n_fits
decreasing_by
  have hne : n_fits ≠ 0 := by
    rintro rfl
    simp [nllsOf] at h1
  omega

/-- `getNBinsFitted` from `src/finalfits/utils.py`: bin boundaries are
`np.linspace(x.getMin(), x.getMax(), x.getBins() + 1)`, bin centers their
midpoints, and the count is of centers strictly inside at least one of the
`fit_ranges`.  Center `i` of `nbins` uniform bins over `[xmin, xmax]` is
`xmin + (xmax - xmin) * (2 * i + 1) / (2 * nbins)`. -/
def getNBinsFitted (xmin xmax : ℚ) (nbins : ℕ) (fit_ranges : List (ℚ × ℚ)) : ℕ :=
  ((List.range nbins).filter (fun i =>
    let c : ℚ := xmin + (xmax - xmin) * (2 * (i : ℚ) + 1) / (2 * (nbins : ℚ))
    fit_ranges.any (fun r => decide (r.1 < c) && decide (c < r.2)))).length

/-- The dictionary returned by `fitting.fit`. -/
structure GofOut where
  twoNLL : ℚ
  gof_pval : ℚ
deriving DecidableEq

/-- `fit` from `src/finalfits/fitting.py`.  The `assert method in [...]` is
the only guard; the `"robust"` method runs `robust_fit` with its default
`n_fits = 8`, `recursive = True`, `max_n_fits = 1024` (the other two methods
run a single `fitTo`, whose numerical outcome is outside the model).  After
the fit, `twoNLL` is read from the likelihood oracle and
`fit_dof = int(getNBinsFitted(...) - pdf.get_dof())` is passed directly to
`ROOT.TMath.Prob` — the source contains no `dof <= 0` check on this path. -/
def fit (nllOf : ℕ → ℕ → ℚ) (prob : ℚ → ℤ → ℚ) (method : String)
    (xmin xmax : ℚ) (nbins : ℕ) (fit_ranges : List (ℚ × ℚ))
    (twoNLL : ℚ) (pdf_dof : ℕ) : Except String GofOut :=
  if method = "robust" ∨ method = "from_defaults" ∨ method = "randomize" then
    (if method = "robust" then robust_fit nllOf 1024 true 8 else Except.ok ()).bind
      (fun _ =>
        let fit_dof : ℤ := (getNBinsFitted xmin xmax nbins fit_ranges : ℤ) - (pdf_dof : ℤ)
        Except.ok ⟨twoNLL, prob twoNLL fit_dof⟩)
  else Except.error "AssertionError: Unknown fitting method"

/-- Model of the order validation performed by `FinalFitsPdf.__init__`
(`src/finalfits/pdfs.py`).  The constructor itself only checks
`order > max_order` (raising `ValueError`).  For `order < 1` construction
nevertheless always raises before completing: `init_param_bounds` calls
`expand_config`, which compiles the pattern `k + f"[1-{self.order}]?"` for
each bounds key `k`; for `order <= 0` the character class `[1-0]`, `[1--1]`,
... is a bad (reversed) character range and `re.fullmatch` raises `re.error`
(for sum shapes with `order = 0`, evaluating `default_bounds` raises
`ZeroDivisionError` from `1/self.order` even earlier).  For
`1 <= order <= max_order` every pattern is well formed and construction
completes.  So an instance exists exactly for `order` in `[1, max_order]`. -/
def FinalFitsPdf_init (max_order : ℕ) (order : ℤ) : Except String ℤ :=
  if order > (max_order : ℤ) then
    Except.error "ValueError: Order is too high."
  else if order < 1 then
    Except.error "re.error: bad character range in expand_config pattern"
  else Except.ok order

/-- Free-parameter count (`get_dof`, i.e. `len(self.free_params)`) of a
`Gaussian` of a given order (`src/finalfits/pdfs.py`): a sum shape with shape
bounds `{mean, sigma}` has `2 * order` shape parameters, `order - 1` mixture
coefficients `c0..`, and the `norm` parameter. -/
def Gaussian_dof (order : ℕ) : ℕ := 2 * order + (order - 1) + 1

/-- `get_dof` of an `Exponential` (sum shape, shape bounds `{a}`):
`order` shape parameters, `order - 1` coefficients, and `norm`. -/
def Exponential_dof (order : ℕ) : ℕ := order + (order - 1) + 1

/-- `get_dof` of a `Power` (sum shape, shape bounds `{a}`): as `Exponential`. -/
def Power_dof (order : ℕ) : ℕ := order + (order - 1) + 1

/-- `get_dof` of a `Bernstein` (plain shape, shape bounds `{a}`):
`order` shape parameters plus `norm`. -/
def Bernstein_dof (order : ℕ) : ℕ := order + 1

/-- `get_dof` of an `ExpPoly` (plain shape, shape bounds `{a}`): as
`Bernstein`. -/
def ExpPoly_dof (order : ℕ) : ℕ := order + 1

/-- `get_dof` of a `Laurent` (plain shape, shape bounds `{a}`): `order` shape
parameters plus `norm`. -/
def Laurent_dof (order : ℕ) : ℕ := order + 1

/-! ## Helper lemmas -/

lemma mem_dropLast_or_eq {α : Type*} {l : List α} {r : α}
    (hL : l.getLast? = some r) : ∀ x ∈ l, x ∈ l.dropLast ∨ x = r := by
  intro x hx
  have hne : l ≠ [] := by rintro rfl; simp at hL
  have hr : l.getLast hne = r := by
    rw [List.getLast?_eq_getLast l hne] at hL
    exact Option.some.inj hL
  have hdec := List.dropLast_append_getLast hne
  rcases List.mem_append.mp (by rw [hdec]; exact hx) with h | h
  · exact Or.inl h
  · exact Or.inr (by simpa [hr] using h)

lemma shouldKeepGoing_true_last_lt {results : List FitRec} {dao : Bool}
    {maxd : ℕ} {g f : ℚ} {rs' : List FitRec}
    (h : shouldKeepGoing results dao maxd g f = (true, rs')) :
    ∀ r, results.getLast? = some r → r.dof < maxd := by
  intro r hr
  rw [shouldKeepGoing, hr] at h
  dsimp only at h
  split_ifs at h with h1 h2 h3 <;> simp_all <;> omega

lemma shouldKeepGoing_true_unchanged {results : List FitRec} {dao : Bool}
    {maxd : ℕ} {g f : ℚ} {rs' : List FitRec}
    (h : shouldKeepGoing results dao maxd g f = (true, rs')) : rs' = results := by
  rw [shouldKeepGoing] at h
  cases hL : results.getLast? with
  | none =>
    rw [hL] at h
    dsimp only at h
    simpa using (Prod.mk.inj h).2.symm
  | some r =>
    rw [hL] at h
    dsimp only at h
    split_ifs at h <;> simp_all

lemma shouldKeepGoing_false_bound {results : List FitRec} {dao : Bool}
    {maxd : ℕ} {g f : ℚ} {rs' : List FitRec}
    (h : shouldKeepGoing results dao maxd g f = (false, rs'))
    (hinv : ∀ x ∈ results.dropLast, x.dof < maxd) :
    ∀ r ∈ rs', r.dof ≤ maxd := by
  rw [shouldKeepGoing] at h
  cases hL : results.getLast? with
  | none => rw [hL] at h; simp at h
  | some r =>
    rw [hL] at h
    dsimp only at h
    have hmem := mem_dropLast_or_eq hL
    split_ifs at h with h1 h2 h3
    · have hrs : rs' = results := by simpa using (Prod.mk.inj h).2.symm
      subst hrs
      intro x hx
      rcases hmem x hx with hx' | hx'
      · exact le_of_lt (hinv x hx')
      · subst hx'; omega
    · have hrs : rs' = results.dropLast := by simpa using (Prod.mk.inj h).2.symm
      subst hrs
      intro x hx
      exact le_of_lt (hinv x hx)
    · have hrs : rs' = results := by simpa using (Prod.mk.inj h).2.symm
      subst hrs
      intro x hx
      rcases hmem x hx with hx' | hx'
      · exact le_of_lt (hinv x hx')
      · subst hx'; omega
    · simp at h

lemma getResultsAux_dof_le (fitres : ℕ → FitOut) (doffn : ℕ → ℕ)
    (prob : ℚ → ℤ → ℚ) (dao : Bool) (maxd : ℕ) :
    ∀ (fuel order : ℕ) (results : List FitRec),
      (∀ x ∈ results.dropLast, x.dof < maxd) →
      ∀ rs, getResultsAux fitres doffn prob dao maxd fuel order results = some rs →
      ∀ r ∈ rs, r.dof ≤ maxd := by
  intro fuel
  induction fuel with
  | zero => intro order results hinv rs h; simp [getResultsAux] at h
  | succ n ih =>
    intro order results hinv rs h
    rw [getResultsAux] at h
    cases hSKG : shouldKeepGoing results dao maxd gof_threshold_default
        ftest_threshold_default with
    | mk keep rs' =>
      rw [hSKG] at h
      cases keep with
      | false =>
        have hrs : rs' = rs := by simpa using h
        subst hrs
        exact shouldKeepGoing_false_bound hSKG hinv
      | true =>
        have hlt := shouldKeepGoing_true_last_lt hSKG
        refine ih (order + 1) (appendRecord fitres doffn prob results order) ?_ rs (by simpa using h)
        intro x hx
        rw [appendRecord] at hx
        simp only [List.dropLast_concat] at hx
        cases hL : results.getLast? with
        | none =>
          rcases results with _ | ⟨a, t⟩
          · simp at hx
          · rw [List.getLast?_eq_none_iff] at hL
            simp at hL
        | some r =>
          rcases mem_dropLast_or_eq hL x hx with hx' | hx'
          · exact hinv x hx'
          · subst hx'; exact hlt x hL


/-! ## C1 -/

/-- C1: For every family searched by the order-selection loop (`getResults`),
a returned Family Result Sequence contains no record whose `dof` exceeds
`max_dof`.  Moreover the check happens in `shouldKeepGoing` before each new
order is attempted: when the last appended record's `dof` equals `max_dof`
the loop stops keeping the list, and when it exceeds `max_dof` that record is
deleted (`del results[-1]`) and the loop stops. -/
theorem getResults_never_exceeds_max_dof (fitres : ℕ → FitOut) (doffn : ℕ → ℕ)
    (prob : ℚ → ℤ → ℚ) (do_all_orders : Bool) (max_dof fuel : ℕ)
    (rs : List FitRec)
    (h : getResults fitres doffn prob do_all_orders max_dof fuel = some rs) :
    (∀ r ∈ rs, r.dof ≤ max_dof)
    ∧ (∀ (results : List FitRec) (dao : Bool) (g f : ℚ) (r : FitRec),
        results.getLast? = some r → r.dof = max_dof →
        shouldKeepGoing results dao max_dof g f = (false, results))
    ∧ (∀ (results : List FitRec) (dao : Bool) (g f : ℚ) (r : FitRec),
        results.getLast? = some r → max_dof < r.dof →
        shouldKeepGoing results dao max_dof g f = (false, results.dropLast)) := by
  refine ⟨getResultsAux_dof_le fitres doffn prob do_all_orders max_dof fuel 1 []
      (by simp) rs h, ?_, ?_⟩
  · intro results dao g f r hL hdof
    rw [shouldKeepGoing, hL]
    dsimp only
    rw [if_pos hdof]
  · intro results dao g f r hL hdof
    rw [shouldKeepGoing, hL]
    dsimp only
    rw [if_neg (by omega), if_pos hdof]

/-- Witness for C1 at a concrete run: family with `dof = 3 * order`,
`max_dof = 5`; the loop fits order 1 (`dof = 3`), fits order 2 (`dof = 6`),
then deletes the overshooting record and stops, returning only the order-1
record, whose `dof` is within the bound. -/
theorem getResults_never_exceeds_max_dof_witness :
    (∀ r ∈ [(⟨1, 3, 0, 1, 0⟩ : FitRec)], r.dof ≤ 5)
    ∧ (∀ (results : List FitRec) (dao : Bool) (g f : ℚ) (r : FitRec),
        results.getLast? = some r → r.dof = 5 →
        shouldKeepGoing results dao 5 g f = (false, results))
    ∧ (∀ (results : List FitRec) (dao : Bool) (g f : ℚ) (r : FitRec),
        results.getLast? = some r → 5 < r.dof →
        shouldKeepGoing results dao 5 g f = (false, results.dropLast)) :=
  getResults_never_exceeds_max_dof (fun _ => ⟨0, 1⟩) (fun n => 3 * n)
    (fun _ _ => 1) false 5 10
    [⟨1, 3, 0, 1, 0⟩] (by decide)

/-! ## C7 -/

/-- C7: When `do_all_orders` is false and the last record's `dof` is strictly
below `max_dof`, `shouldKeepGoing` (with the default thresholds, as called
from `getResults`) stops the loop exactly when the last record's `ftest_pval`
exceeds 0.05 and its `gof_pval` exceeds 0.01; with `do_all_orders` true it
never stops on these thresholds. -/
theorem shouldKeepGoing_threshold_stop_iff (results : List FitRec) (r : FitRec)
    (max_dof : ℕ) (hlast : results.getLast? = some r) (hdof : r.dof < max_dof) :
    ((shouldKeepGoing results false max_dof gof_threshold_default
        ftest_threshold_default).1 = false ↔
      ftest_threshold_default < r.ftest_pval ∧ gof_threshold_default < r.gof_pval)
    ∧ (shouldKeepGoing results true max_dof gof_threshold_default
        ftest_threshold_default).1 = true := by
  constructor
  · rw [shouldKeepGoing, hlast]
    dsimp only
    rw [if_neg (by omega), if_neg (by omega)]
    by_cases hc : ftest_threshold_default < r.ftest_pval ∧
        gof_threshold_default < r.gof_pval
    · rw [if_pos ⟨rfl, hc.1, hc.2⟩]
      simpa using hc
    · rw [if_neg (fun hx => hc ⟨hx.2.1, hx.2.2⟩)]
      simpa using hc
  · rw [shouldKeepGoing, hlast]
    dsimp only
    rw [if_neg (by omega), if_neg (by omega), if_neg (by simp)]

/-- Witness for C7 at a concrete record with `ftest_pval = 1 > 0.05` and
`gof_pval = 1 > 0.01` and `dof = 2 < 5`. -/
theorem shouldKeepGoing_threshold_stop_iff_witness :
    ((shouldKeepGoing [(⟨1, 2, 0, 1, 1⟩ : FitRec)] false 5 gof_threshold_default
        ftest_threshold_default).1 = false ↔
      ftest_threshold_default < (⟨1, 2, 0, 1, 1⟩ : FitRec).ftest_pval ∧
        gof_threshold_default < (⟨1, 2, 0, 1, 1⟩ : FitRec).gof_pval)
    ∧ (shouldKeepGoing [(⟨1, 2, 0, 1, 1⟩ : FitRec)] true 5 gof_threshold_default
        ftest_threshold_default).1 = true :=
  shouldKeepGoing_threshold_stop_iff [⟨1, 2, 0, 1, 1⟩] ⟨1, 2, 0, 1, 1⟩
    5 rfl (by decide)


lemma chain'_dropLast {α : Type*} {R : α → α → Prop} {l : List α}
    (h : List.Chain' R l) : List.Chain' R l.dropLast := by
  cases hne : l.getLast? with
  | none => rcases l with _ | ⟨a, t⟩ <;> simp_all [List.getLast?_eq_none_iff]
  | some r =>
    have hne' : l ≠ [] := by rintro rfl; simp at hne
    have hdec := List.dropLast_append_getLast hne'
    rw [← hdec] at h
    exact (List.chain'_append.mp h).1

lemma head?_dropLast {α : Type*} (l : List α) :
    ∀ r, l.dropLast.head? = some r → l.head? = some r := by
  rcases l with _ | ⟨a, t⟩
  · simp
  · rcases t with _ | ⟨b, u⟩
    · simp
    · intro r hr
      simp only [List.dropLast_cons₂, List.head?_cons] at hr ⊢
      exact hr

lemma shouldKeepGoing_false_shape {results : List FitRec} {dao : Bool}
    {maxd : ℕ} {g f : ℚ} {rs' : List FitRec}
    (h : shouldKeepGoing results dao maxd g f = (false, rs')) :
    rs' = results ∨ rs' = results.dropLast := by
  rw [shouldKeepGoing] at h
  cases hL : results.getLast? with
  | none => rw [hL] at h; simp at h
  | some r =>
    rw [hL] at h
    dsimp only at h
    split_ifs at h <;> simp_all

lemma getResultsAux_dof_chain (fitres : ℕ → FitOut) (doffn : ℕ → ℕ)
    (prob : ℚ → ℤ → ℚ) (dao : Bool) (maxd : ℕ) (hmono : StrictMono doffn) :
    ∀ (fuel order : ℕ) (results : List FitRec),
      List.Chain' (fun a b => a.dof < b.dof) results →
      (∀ r, results.getLast? = some r → r.dof = doffn r.order ∧ r.order < order) →
      ∀ rs, getResultsAux fitres doffn prob dao maxd fuel order results = some rs →
      List.Chain' (fun a b => a.dof < b.dof) rs := by
  intro fuel
  induction fuel with
  | zero => intro order results hch hlast rs h; simp [getResultsAux] at h
  | succ n ih =>
    intro order results hch hlast rs h
    rw [getResultsAux] at h
    cases hSKG : shouldKeepGoing results dao maxd gof_threshold_default
        ftest_threshold_default with
    | mk keep rs' =>
      rw [hSKG] at h
      cases keep with
      | false =>
        have hrs : rs' = rs := by simpa using h
        subst hrs
        rcases shouldKeepGoing_false_shape hSKG with h' | h' <;> subst h'
        · exact hch
        · exact chain'_dropLast hch
      | true =>
        refine ih (order + 1) (appendRecord fitres doffn prob results order) ?_ ?_ rs
          (by simpa using h)
        · rw [appendRecord]
          refine List.chain'_append.mpr ⟨hch, by simp, ?_⟩
          intro x hx y hy
          simp only [List.head?_cons, Option.mem_def, Option.some.injEq] at hy
          subst hy
          have hx' := hlast x hx
          show x.dof < doffn order
          rw [hx'.1]
          exact hmono (lt_of_lt_of_le hx'.2 (le_refl order))
        · intro r hr
          rw [appendRecord, List.getLast?_concat] at hr
          cases hr
          exact ⟨rfl, Nat.lt_succ_self order⟩

/-! ## C9 -/

/-- C9 (amended): the pdf families of `src/finalfits/pdfs.py` all have a
free-parameter count (`get_dof`) that strictly increases with the order, and
since `getResults` fits orders 1, 2, 3, ... in turn, every Family Result
Sequence it returns has strictly increasing `dof`.  (There is, however, no
explicit monotonicity check in `getResults`: see the counterexample theorem
for a family oracle with constant `dof`.) -/
theorem getResults_dof_strictly_increasing :
    (∀ doffn : ℕ → ℕ, StrictMono doffn →
      ∀ (fitres : ℕ → FitOut) (prob : ℚ → ℤ → ℚ) (dao : Bool) (maxd fuel : ℕ)
        (rs : List FitRec),
        getResults fitres doffn prob dao maxd fuel = some rs →
        List.Chain' (fun a b => a.dof < b.dof) rs)
    ∧ StrictMono Gaussian_dof ∧ StrictMono Exponential_dof ∧ StrictMono Power_dof
    ∧ StrictMono Bernstein_dof ∧ StrictMono ExpPoly_dof ∧ StrictMono Laurent_dof := by
  refine ⟨?_, ?_, ?_, ?_, ?_, ?_, ?_⟩
  · intro doffn hmono fitres prob dao maxd fuel rs h
    exact getResultsAux_dof_chain fitres doffn prob dao maxd hmono fuel 1 []
      (by simp) (by simp) rs h
  · intro a b hab; simp only [Gaussian_dof]; omega
  · intro a b hab; simp only [Exponential_dof]; omega
  · intro a b hab; simp only [Power_dof]; omega
  · intro a b hab; simp only [Bernstein_dof]; omega
  · intro a b hab; simp only [ExpPoly_dof]; omega
  · intro a b hab; simp only [Laurent_dof]; omega

/-- Witness for C9 at a concrete strictly monotone family (`dof = 3 * order`,
the `Gaussian` count): the returned single-record sequence is a strictly
increasing chain. -/
theorem getResults_dof_strictly_increasing_witness :
    List.Chain' (fun a b => a.dof < b.dof) [(⟨1, 3, 0, 1, 0⟩ : FitRec)] :=
  (getResults_dof_strictly_increasing.1 (fun n => 3 * n)
    (fun a b hab => by dsimp only; omega) (fun _ => ⟨0, 1⟩) (fun _ _ => 1) false 5 10
    [⟨1, 3, 0, 1, 0⟩] (by decide))

/-- Counterexample to C9 as stated: `getResults` contains no fail-fast check
on `dof`.  Run against a (hypothetical) family oracle whose `dof` is the
constant 3, the loop happily returns a two-record sequence with duplicate
`dof` instead of failing: the records are returned (`some`), not rejected. -/
theorem getResults_no_monotonicity_check :
    getResults (fun _ => ⟨0, 1⟩) (fun _ => 3) (fun _ _ => 1) false 5 10 =
      some [⟨1, 3, 0, 1, 0⟩, ⟨2, 3, 0, 1, 1⟩]
    ∧ ¬ List.Chain' (fun a b : FitRec => a.dof < b.dof)
        [(⟨1, 3, 0, 1, 0⟩ : FitRec), ⟨2, 3, 0, 1, 1⟩] :=
  ⟨by decide, by simp [List.chain'_cons]⟩


lemma clamp_eq_max (x : ℚ) : (if x < 0 then 0 else x) = max 0 x := by
  rcases lt_or_le x 0 with h | h
  · rw [if_pos h, max_eq_left h.le]
  · rw [if_neg (not_lt.mpr h), max_eq_right h]

lemma getResultsAux_ftest_chain (fitres : ℕ → FitOut) (doffn : ℕ → ℕ)
    (prob : ℚ → ℤ → ℚ) (dao : Bool) (maxd : ℕ) :
    ∀ (fuel order : ℕ) (results : List FitRec),
      (∀ r, results.head? = some r → r.ftest_pval = 0) →
      List.Chain' (ftestOk prob) results →
      ∀ rs, getResultsAux fitres doffn prob dao maxd fuel order results = some rs →
      (∀ r, rs.head? = some r → r.ftest_pval = 0) ∧ List.Chain' (ftestOk prob) rs := by
  intro fuel
  induction fuel with
  | zero => intro order results hhd hch rs h; simp [getResultsAux] at h
  | succ n ih =>
    intro order results hhd hch rs h
    rw [getResultsAux] at h
    cases hSKG : shouldKeepGoing results dao maxd gof_threshold_default
        ftest_threshold_default with
    | mk keep rs' =>
      rw [hSKG] at h
      cases keep with
      | false =>
        have hrs : rs' = rs := by simpa using h
        subst hrs
        rcases shouldKeepGoing_false_shape hSKG with h' | h' <;> subst h'
        · exact ⟨hhd, hch⟩
        · exact ⟨fun r hr => hhd r (head?_dropLast results r hr), chain'_dropLast hch⟩
      | true =>
        refine ih (order + 1) (appendRecord fitres doffn prob results order) ?_ ?_ rs
          (by simpa using h)
        · rw [appendRecord]
          rcases results with _ | ⟨a, t⟩
          · intro r hr
            simp only [List.nil_append, List.head?_cons, Option.some.injEq] at hr
            subst hr
            rfl
          · intro r hr
            simp only [List.cons_append, List.head?_cons, Option.some.injEq] at hr
            subst hr
            exact hhd _ rfl
        · rw [appendRecord]
          refine List.chain'_append.mpr ⟨hch, by simp, ?_⟩
          intro x hx y hy
          simp only [List.head?_cons, Option.mem_def, Option.some.injEq] at hy
          subst hy
          show ftestOk prob x _
          rw [ftestOk]
          show ftestOf prob results _ = _
          rw [ftestOf, hx]
          dsimp only
          rw [clamp_eq_max]

lemma bgGetResultsAux_ftest_chain (fitres : ℕ → FitOut) (doffn : ℕ → ℕ)
    (prob : ℚ → ℤ → ℚ) (dao : Bool) (maxd : ℕ) :
    ∀ (fuel order : ℕ) (results : List FitRec),
      (∀ r, results.head? = some r → r.ftest_pval = 0) →
      List.Chain' (bgFtestOk prob) results →
      ∀ rs, bgGetResultsAux fitres doffn prob dao maxd fuel order results = some rs →
      (∀ r, rs.head? = some r → r.ftest_pval = 0) ∧ List.Chain' (bgFtestOk prob) rs := by
  intro fuel
  induction fuel with
  | zero => intro order results hhd hch rs h; simp [bgGetResultsAux] at h
  | succ n ih =>
    intro order results hhd hch rs h
    rw [bgGetResultsAux] at h
    cases hSKG : shouldKeepGoing results dao maxd gof_threshold_default
        ftest_threshold_default with
    | mk keep rs' =>
      rw [hSKG] at h
      cases keep with
      | false =>
        have hrs : rs' = rs := by simpa using h
        subst hrs
        rcases shouldKeepGoing_false_shape hSKG with h' | h' <;> subst h'
        · exact ⟨hhd, hch⟩
        · exact ⟨fun r hr => hhd r (head?_dropLast results r hr), chain'_dropLast hch⟩
      | true =>
        rcases hL : results.getLast? with _ | prev
        · have hnil : results = [] := by
            rcases results with _ | ⟨a, t⟩
            · rfl
            · rw [List.getLast?_eq_none_iff] at hL; simp at hL
          subst hnil
          refine ih (order + 1) (bgAppendRecord fitres doffn prob [] order) ?_ ?_ rs
            (by simpa using h)
          · intro r hr
            rw [bgAppendRecord] at hr
            simp only [List.getLast?_nil, List.nil_append, List.head?_cons,
              Option.some.injEq] at hr
            subst hr
            rfl
          · rw [bgAppendRecord]
            dsimp only
            exact List.chain'_singleton _
        · refine ih (order + 1) (bgAppendRecord fitres doffn prob results order) ?_ ?_ rs
            (by simpa using h)
          · rw [bgAppendRecord, hL]
            rcases results with _ | ⟨a, t⟩
            · simp at hL
            · intro r hr
              simp only [List.cons_append, List.head?_cons, Option.some.injEq] at hr
              subst hr
              exact hhd _ rfl
          · rw [bgAppendRecord, hL]
            dsimp only
            refine List.chain'_append.mpr ⟨hch, by simp, ?_⟩
            intro x hx y hy
            simp only [List.head?_cons, Option.mem_def, Option.some.injEq] at hy
            subst hy
            rw [Option.mem_def, hL, Option.some.injEq] at hx
            show bgFtestOk prob x _
            rw [bgFtestOk, ← hx]
            dsimp only
            rw [clamp_eq_max]

/-! ## C3 -/

/-- C3 (amended): in `getResults` of `src/finalfits/ftest.py` the first
record of a returned family gets `ftest_pval = 0` and every later record's
`ftest_pval` is `Prob(max(0, Δ(2·NLL)), dof_cur - dof_prev)` — the dof
difference, as the claim states.  In the legacy `getResults` of
`src/background/fTest.py` the first record also carries `ftest_pval = 0`
(set by `fitFunction`), but the `ndf` passed to `Prob` is the *order*
difference `results[-1]["order"] - results[-2]["order"]`, not the dof
difference. -/
theorem getResults_ftest_pval_formula :
    (∀ (fitres : ℕ → FitOut) (doffn : ℕ → ℕ) (prob : ℚ → ℤ → ℚ) (dao : Bool)
        (maxd fuel : ℕ) (rs : List FitRec),
        getResults fitres doffn prob dao maxd fuel = some rs →
        (∀ r, rs.head? = some r → r.ftest_pval = 0) ∧ List.Chain' (ftestOk prob) rs)
    ∧ (∀ (fitres : ℕ → FitOut) (doffn : ℕ → ℕ) (prob : ℚ → ℤ → ℚ) (dao : Bool)
        (maxd fuel : ℕ) (rs : List FitRec),
        bgGetResults fitres doffn prob dao maxd fuel = some rs →
        (∀ r, rs.head? = some r → r.ftest_pval = 0) ∧ List.Chain' (bgFtestOk prob) rs) := by
  constructor
  · intro fitres doffn prob dao maxd fuel rs h
    exact getResultsAux_ftest_chain fitres doffn prob dao maxd fuel 1 []
      (by simp) (by simp) rs h
  · intro fitres doffn prob dao maxd fuel rs h
    exact bgGetResultsAux_ftest_chain fitres doffn prob dao maxd fuel 1 []
      (by simp) (by simp) rs h

/-- Witness for C3 at a concrete two-record run of the `finalfits`
`getResults` (constant `Prob` oracle 1): first record's `ftest_pval` is 0 and
consecutive records satisfy the dof-difference formula. -/
theorem getResults_ftest_pval_formula_witness :
    (∀ r, [(⟨1, 3, 0, 1, 0⟩ : FitRec), ⟨2, 3, 0, 1, 1⟩].head? = some r →
      r.ftest_pval = 0)
    ∧ List.Chain' (ftestOk (fun _ _ => 1))
        [(⟨1, 3, 0, 1, 0⟩ : FitRec), ⟨2, 3, 0, 1, 1⟩] :=
  getResults_ftest_pval_formula.1 (fun _ => ⟨0, 1⟩) (fun _ => 3) (fun _ _ => 1)
    false 5 10 [⟨1, 3, 0, 1, 0⟩, ⟨2, 3, 0, 1, 1⟩] (by decide)

/-- Counterexample to C3 as stated: the legacy `getResults` of
`src/background/fTest.py` (one of the claim's cited code locations) passes
the order difference as `ndf`.  With a `Gaussian`-like family
(`get_dof = 3 * order - 1`, so the dof difference between orders 1 and 2 is
3 while the order difference is 1) and a `Prob` oracle returning 7 at
`ndf = 3` and 1 otherwise, the returned second record carries
`ftest_pval = 1`, not the 7 the claim's dof-difference formula demands. -/
theorem bg_getResults_ftest_uses_order_difference :
    bgGetResults (fun _ => ⟨0, 1⟩) (fun n => 3 * n - 1)
      (fun _ ndf => if ndf = 3 then 7 else 1) false 10 10 =
      some [⟨1, 2, 0, 1, 0⟩, ⟨2, 5, 0, 1, 1⟩]
    ∧ ¬ ftestOk (fun _ ndf => if ndf = 3 then 7 else 1)
        ⟨1, 2, 0, 1, 0⟩ ⟨2, 5, 0, 1, 1⟩ := by
  constructor
  · decide
  · rw [ftestOk]
    dsimp only
    rw [if_pos (by decide)]
    decide


/-! ## C5 -/

lemma mem_gofZeroed {l : List FitRec} {r : FitRec}
    (hr : r ∈ (match l with
      | [] => ([] : List FitRec)
      | a :: t => { a with ftest_pval := 0 } :: t)) :
    ∃ x ∈ l, x.gof_pval = r.gof_pval := by
  rcases l with _ | ⟨a, t⟩
  · simp at hr
  · rcases List.mem_cons.mp hr with h | h
    · exact ⟨a, List.mem_cons_self a t, by rw [h]⟩
    · exact ⟨r, List.mem_cons_of_mem a h, rfl⟩

/-- C5: `filterResults` is the composition of the two filtering stages, per
family: first keep exactly the records with `gof_pval` strictly above the GoF
threshold (default 0.01) and zero the first survivor's `ftest_pval`, then
keep exactly the records with `ftest_pval` strictly below the F-test
threshold (default 0.05).  Consequently every surviving record has
`gof_pval` above the first threshold and `ftest_pval` below the second. -/
theorem filterResults_two_stage (results : List (List FitRec)) :
    filterResults results =
      results.map (fun fam : List FitRec =>
        (match fam.filter (fun r : FitRec => decide (gof_threshold_default < r.gof_pval)) with
          | [] => ([] : List FitRec)
          | r :: rs => { r with ftest_pval := 0 } :: rs).filter
          (fun r : FitRec => decide (r.ftest_pval < ftest_threshold_default)))
    ∧ ∀ fam ∈ filterResults results, ∀ r ∈ fam,
        gof_threshold_default < r.gof_pval ∧ r.ftest_pval < ftest_threshold_default := by
  constructor
  · rw [filterResults, filterByGof, filterByFtest, List.map_map]
    rfl
  · intro fam hfam r hr
    rw [filterResults, filterByFtest] at hfam
    rcases List.mem_map.mp hfam with ⟨fam1, hfam1, rfl⟩
    have hr2 := List.mem_filter.mp hr
    refine ⟨?_, by simpa using hr2.2⟩
    rw [filterByGof] at hfam1
    rcases List.mem_map.mp hfam1 with ⟨fam0, _, rfl⟩
    rcases mem_gofZeroed hr2.1 with ⟨x, hx, hgof⟩
    have hpx := (List.mem_filter.mp hx).2
    rw [← hgof]
    simpa using hpx

/-- Witness for C5: in the family
`[gof 0 / ftest 0, gof 1 / ftest 1, gof 1 / ftest 1]` the first record fails
the GoF cut, the second survives and is zeroed (then passes the F-test cut),
the third survives GoF but fails the F-test cut; the survivor satisfies both
thresholds. -/
theorem filterResults_two_stage_witness :
    gof_threshold_default < (⟨2, 3, 0, 1, 0⟩ : FitRec).gof_pval ∧
      (⟨2, 3, 0, 1, 0⟩ : FitRec).ftest_pval < ftest_threshold_default :=
  (filterResults_two_stage
      [[⟨1, 2, 0, 0, 0⟩, ⟨2, 3, 0, 1, 1⟩, ⟨3, 4, 0, 1, 1⟩]]).2
    [⟨2, 3, 0, 1, 0⟩] (by decide) ⟨2, 3, 0, 1, 0⟩ (by decide)

/-! ## C6 -/

lemma getD_indexOf {α : Type*} [DecidableEq α] (d : α) (l : List α) (a : α)
    (h : a ∈ l) : l.getD (l.indexOf a) d = a := by
  induction l with
  | nil => simp at h
  | cons b t ih =>
    by_cases hab : a = b
    · subst hab
      rw [List.indexOf_cons_self]
      exact List.getD_cons_zero
    · rcases List.mem_cons.mp h with h' | h'
      · exact absurd h' hab
      · rw [List.indexOf_cons_ne t (fun hba => hab hba.symm), Nat.succ_eq_add_one,
          List.getD_cons_succ]
        exact ih h'

lemma getD_ne_of_lt_indexOf {α : Type*} [DecidableEq α] (d : α) :
    ∀ (l : List α) (a : α) (j : ℕ), j < l.indexOf a → l.getD j d ≠ a := by
  intro l
  induction l with
  | nil => intro a j hj; simp [List.indexOf_nil] at hj
  | cons b t ih =>
    intro a j hj
    by_cases hab : a = b
    · subst hab
      rw [List.indexOf_cons_self] at hj
      omega
    · rw [List.indexOf_cons_ne t (fun hba => hab hba.symm)] at hj
      rcases j with _ | k
      · rw [List.getD_cons_zero]
        exact fun hba => hab hba.symm
      · rw [List.getD_cons_succ]
        exact ih a k (by omega)

/-- C6: when `createEnvelope` returns an envelope, its pdf list is the
flattening of the surviving records across all families (in family order),
its `active_index` is in range, the record at the `active_index` has the
maximum `gof_pval` of all surviving records, and every earlier position
holds a record with a strictly different (hence smaller) `gof_pval` — the
index is the *first* position attaining the maximum. -/
theorem createEnvelope_active_index (results : List (List FitRec))
    (fl : List FitRec) (i : ℕ)
    (h : createEnvelope results = some (fl, i)) :
    fl = results.flatten ∧ i < fl.length
    ∧ (∀ r ∈ fl, r.gof_pval ≤ (fl.getD i default).gof_pval)
    ∧ (∀ j < i, (fl.getD j default).gof_pval ≠ (fl.getD i default).gof_pval) := by
  rw [createEnvelope] at h
  set gofs := (results.map (fun fam => fam.map FitRec.gof_pval)).flatten with hgofs
  cases hmax : gofs.max? with
  | none => rw [hmax] at h; simp at h
  | some m =>
    rw [hmax] at h
    dsimp only at h
    rcases Prod.mk.inj (Option.some.inj h) with ⟨hfl, hi⟩
    have hgofs_map : gofs = fl.map FitRec.gof_pval := by
      rw [← hfl, hgofs, List.map_flatten]
    have hm_mem : m ∈ gofs := List.max?_mem max_choice hmax
    have hm_le : ∀ b ∈ gofs, b ≤ m :=
      (List.max?_le_iff (fun _ _ _ => max_le_iff) hmax).mp le_rfl
    have hi_lt : i < gofs.length := by
      rw [← hi]
      exact List.indexOf_lt_length.mpr hm_mem
    have hlen : gofs.length = fl.length := by
      rw [hgofs_map, List.length_map]
    have hgetD : ∀ j : ℕ, gofs.getD j (default : FitRec).gof_pval =
        (fl.getD j default).gof_pval := by
      intro j
      rw [hgofs_map]
      exact List.getD_map fl default FitRec.gof_pval
    have hati : (fl.getD i default).gof_pval = m := by
      rw [← hgetD i, ← hi]
      exact getD_indexOf _ gofs m hm_mem
    refine ⟨hfl.symm, by omega, ?_, ?_⟩
    · intro r hr
      rw [hati]
      exact hm_le r.gof_pval (by rw [hgofs_map]; exact List.mem_map_of_mem _ hr)
    · intro j hj
      rw [hati, ← hgetD j]
      exact getD_ne_of_lt_indexOf _ gofs m j (by omega)

/-- Witness for C6 at a concrete two-family input: the active index is 1,
where the larger `gof_pval` (1, vs 1/2) sits. -/
theorem createEnvelope_active_index_witness :
    [(⟨1, 2, 0, mkRat 1 2, 0⟩ : FitRec), ⟨1, 3, 0, 1, 0⟩] =
      ([[(⟨1, 2, 0, mkRat 1 2, 0⟩ : FitRec)], [⟨1, 3, 0, 1, 0⟩]] :
        List (List FitRec)).flatten
    ∧ 1 < [(⟨1, 2, 0, mkRat 1 2, 0⟩ : FitRec), ⟨1, 3, 0, 1, 0⟩].length
    ∧ (∀ r ∈ [(⟨1, 2, 0, mkRat 1 2, 0⟩ : FitRec), ⟨1, 3, 0, 1, 0⟩],
        r.gof_pval ≤ ([(⟨1, 2, 0, mkRat 1 2, 0⟩ : FitRec),
          ⟨1, 3, 0, 1, 0⟩].getD 1 default).gof_pval)
    ∧ (∀ j < 1, ([(⟨1, 2, 0, mkRat 1 2, 0⟩ : FitRec),
        ⟨1, 3, 0, 1, 0⟩].getD j default).gof_pval ≠
        ([(⟨1, 2, 0, mkRat 1 2, 0⟩ : FitRec), ⟨1, 3, 0, 1, 0⟩].getD 1
          default).gof_pval) :=
  createEnvelope_active_index [[⟨1, 2, 0, mkRat 1 2, 0⟩], [⟨1, 3, 0, 1, 0⟩]]
    [⟨1, 2, 0, mkRat 1 2, 0⟩, ⟨1, 3, 0, 1, 0⟩] 1 (by decide)

/-! ## C10 -/

/-- C10: when every family's record list is empty after filtering,
`createEnvelope` hits `max(gofs)` on an empty list, i.e. raises `ValueError`
(modelled `none`) instead of returning an envelope; conversely a returned
envelope always carries a non-empty record list. -/
theorem createEnvelope_empty_families_raises :
    (∀ results : List (List FitRec), (∀ fam ∈ results, fam = []) →
      createEnvelope results = none)
    ∧ (∀ (results : List (List FitRec)) (fl : List FitRec) (i : ℕ),
        createEnvelope results = some (fl, i) → fl ≠ []) := by
  constructor
  · intro results hall
    rw [createEnvelope]
    have hnil : (results.map (fun fam => fam.map FitRec.gof_pval)).flatten = [] := by
      rw [List.flatten_eq_nil_iff]
      intro l hl
      rcases List.mem_map.mp hl with ⟨fam, hfam, rfl⟩
      rw [hall fam hfam]
      rfl
    rw [hnil]
    rfl
  · intro results fl i h
    rw [createEnvelope] at h
    cases hmax : (results.map (fun fam => fam.map FitRec.gof_pval)).flatten.max? with
    | none => rw [hmax] at h; simp at h
    | some m =>
      rw [hmax] at h
      dsimp only at h
      rcases Prod.mk.inj (Option.some.inj h) with ⟨hfl, _⟩
      rintro rfl
      have : (results.map (fun fam => fam.map FitRec.gof_pval)).flatten = [] := by
        rw [← List.map_flatten, hfl]
        rfl
      rw [this] at hmax
      simp at hmax

/-- Witness for C10: both conjuncts at concrete inputs — two empty families
give `none`, and the concrete envelope of `createEnvelope_active_index`'s
input is non-empty. -/
theorem createEnvelope_empty_families_raises_witness :
    createEnvelope [[], []] = none :=
  createEnvelope_empty_families_raises.1 [[], []] (by simp)


/-! ## C2 -/

set_option maxHeartbeats 1000000 in
lemma robust_fit_const_zero_ok :
    robust_fit (fun _ _ => 0) 1024 true 8 = Except.ok () := by
  rw [robust_fit]
  have h1 : ((nllsOf (fun _ _ => (0 : ℚ)) 8).take (8 / 2)).min? = some 0 := by decide
  have h2 : ((nllsOf (fun _ _ => (0 : ℚ)) 8).drop (8 / 2)).min? = some 0 := by decide
  rw [h1, h2]
  dsimp only
  rw [if_neg (by norm_num [max_diff])]

/-- C2: one round of `robust_fit` is judged unstable exactly when the
absolute difference of the two half-minima exceeds `max_diff = 0.01`: a
stable round returns normally; an unstable round below the `max_n_fits`
ceiling is retried with `n_fits` doubled (the recursive call's outcome is the
round's outcome); an unstable round at or beyond the ceiling raises the
exception instead of returning.  (`robust_fit` is a total function of the
model — the doubling recursion is well-founded on `max_n_fits - n_fits` — so
it always terminates, and by the first clause it only returns `ok` off the
unstable branch, never silently on it.) -/
theorem robust_fit_stability_escalation (nllOf : ℕ → ℕ → ℚ)
    (max_n_fits n_fits : ℕ) (nll1 nll2 : ℚ)
    (h1 : ((nllsOf nllOf n_fits).take (n_fits / 2)).min? = some nll1)
    (h2 : ((nllsOf nllOf n_fits).drop (n_fits / 2)).min? = some nll2) :
    (¬ |nll1 - nll2| > max_diff →
      robust_fit nllOf max_n_fits true n_fits = Except.ok ())
    ∧ (|nll1 - nll2| > max_diff → n_fits < max_n_fits →
      robust_fit nllOf max_n_fits true n_fits =
        robust_fit nllOf max_n_fits true (n_fits * 2))
    ∧ (|nll1 - nll2| > max_diff → max_n_fits ≤ n_fits →
      robust_fit nllOf max_n_fits true n_fits =
        Except.error (unstableMsg n_fits max_n_fits)) := by
  refine ⟨?_, ?_, ?_⟩
  · intro hd
    conv_lhs => rw [robust_fit]
    rw [h1, h2]
    dsimp only
    rw [if_neg hd]
  · intro hd hlt
    conv_lhs => rw [robust_fit]
    rw [h1, h2]
    dsimp only
    rw [if_pos hd, if_pos ⟨rfl, hlt⟩]
  · intro hd hge
    conv_lhs => rw [robust_fit]
    rw [h1, h2]
    dsimp only
    rw [if_pos hd, if_neg (fun hc => absurd hc.2 (by omega))]

/-- Witness for C2, all three clauses at concrete inputs: a constant NLL
surface is stable at `n_fits = 8` and returns `ok`; a split surface
(`0` on the first half, `1` on the second) is unstable, so at
`n_fits = 4 < max_n_fits = 8` the round is redone at `n_fits = 8`, while at
`n_fits = 4 = max_n_fits` it raises the ceiling error. -/
theorem robust_fit_stability_escalation_witness :
    robust_fit (fun _ _ => 0) 1024 true 8 = Except.ok ()
    ∧ robust_fit (fun _ i => if i < 2 then 0 else 1) 8 true 4 =
        robust_fit (fun _ i => if i < 2 then 0 else 1) 8 true 8
    ∧ robust_fit (fun _ i => if i < 2 then 0 else 1) 4 true 4 =
        Except.error (unstableMsg 4 4) :=
  ⟨(robust_fit_stability_escalation (fun _ _ => 0) 1024 8 0 0 (by decide)
      (by decide)).1 (by norm_num [max_diff]),
    (robust_fit_stability_escalation (fun _ i => if i < 2 then 0 else 1) 8 4 0 1
      (by decide) (by decide)).2.1 (by norm_num [max_diff]) (by norm_num),
    (robust_fit_stability_escalation (fun _ i => if i < 2 then 0 else 1) 4 4 0 1
      (by decide) (by decide)).2.2 (by norm_num [max_diff]) (by norm_num)⟩

/-! ## C4 -/

/-- C4 (amended): `fit` computes the goodness-of-fit `dof` as the number of
bin centers strictly inside the fit ranges (`getNBinsFitted`) minus the
pdf's free-parameter count, and passes it to `ROOT.TMath.Prob` with *no*
`dof <= 0` guard: for every input (any sign of the resulting `dof`), a fit
whose optimisation succeeds returns `ok` with
`gof_pval = Prob(twoNLL, fit_dof)` rather than raising. -/
theorem fit_gof_dof_no_guard (nllOf : ℕ → ℕ → ℚ) (prob : ℚ → ℤ → ℚ)
    (xmin xmax : ℚ) (nbins : ℕ) (fit_ranges : List (ℚ × ℚ)) (twoNLL : ℚ)
    (pdf_dof : ℕ)
    (hstable : robust_fit nllOf 1024 true 8 = Except.ok ()) :
    fit nllOf prob "robust" xmin xmax nbins fit_ranges twoNLL pdf_dof =
      Except.ok ⟨twoNLL, prob twoNLL
        ((getNBinsFitted xmin xmax nbins fit_ranges : ℤ) - (pdf_dof : ℤ))⟩
    ∧ fit nllOf prob "from_defaults" xmin xmax nbins fit_ranges twoNLL pdf_dof =
      Except.ok ⟨twoNLL, prob twoNLL
        ((getNBinsFitted xmin xmax nbins fit_ranges : ℤ) - (pdf_dof : ℤ))⟩ := by
  constructor
  · rw [fit, if_pos (Or.inl rfl), if_pos rfl, hstable]
    rfl
  · rw [fit, if_pos (Or.inr (Or.inl rfl)), if_neg (by decide)]
    rfl

/-- Witness for C4's amended statement with a stable constant NLL surface. -/
theorem fit_gof_dof_no_guard_witness :
    fit (fun _ _ => 0) (fun _ _ => 0) "robust" 100 180 4 [] 5 2 =
      Except.ok ⟨5, (fun _ _ => (0 : ℚ)) 5
        ((getNBinsFitted 100 180 4 [] : ℤ) - ((2 : ℕ) : ℤ))⟩
    ∧ fit (fun _ _ => 0) (fun _ _ => 0) "from_defaults" 100 180 4 [] 5 2 =
      Except.ok ⟨5, (fun _ _ => (0 : ℚ)) 5
        ((getNBinsFitted 100 180 4 [] : ℤ) - ((2 : ℕ) : ℤ))⟩ :=
  fit_gof_dof_no_guard (fun _ _ => 0) (fun _ _ => 0) 100 180 4 [] 5 2
    robust_fit_const_zero_ok

/-- Counterexample to C4 as stated: with no fit ranges, no bin center is
inside any range, so `fit_dof = 0 - 2 <= 0`; yet `fit` (with a stable
optimisation and `Prob` modelled as ROOT's, which returns 0 for
`ndf <= 0`) returns `ok` with the degenerate p-value 0 instead of raising. -/
theorem fit_dof_nonpositive_returns_pvalue :
    ((getNBinsFitted 100 180 4 [] : ℤ) - ((2 : ℕ) : ℤ) ≤ 0)
    ∧ fit (fun _ _ => 0) (fun _ _ => 0) "robust" 100 180 4 [] 5 2 =
        Except.ok ⟨5, 0⟩ := by
  constructor
  · decide
  · rw [fit, if_pos (Or.inl rfl), if_pos rfl, robust_fit_const_zero_ok]
    rfl

/-! ## C8 -/

/-- C8: constructing a `FinalFitsPdf` succeeds exactly when `order` lies in
`[1, max_order]`: `order > max_order` raises the explicit `ValueError`, and
`order < 1` always raises during `init_param_bounds` (a reversed character
range in `expand_config`'s regex for plain shapes, or `ZeroDivisionError`
in `default_bounds` for sum shapes at order 0) — so no instance with an
out-of-range order is ever produced. -/
theorem FinalFitsPdf_init_order_range (max_order : ℕ) (order : ℤ) :
    (FinalFitsPdf_init max_order order = Except.ok order ↔
      1 ≤ order ∧ order ≤ (max_order : ℤ))
    ∧ ∀ o, FinalFitsPdf_init max_order order = Except.ok o →
        o = order ∧ 1 ≤ o ∧ o ≤ (max_order : ℤ) := by
  have hmain : ∀ o, FinalFitsPdf_init max_order order = Except.ok o →
      o = order ∧ 1 ≤ o ∧ o ≤ (max_order : ℤ) := by
    intro o h
    rw [FinalFitsPdf_init] at h
    split_ifs at h with hgt hlt
    have ho : order = o := by simpa using h
    exact ⟨ho.symm, by omega, by omega⟩
  refine ⟨⟨fun h => ?_, fun hb => ?_⟩, hmain⟩
  · exact ⟨(hmain order h).2.1, (hmain order h).2.2⟩
  · rw [FinalFitsPdf_init, if_neg (by omega), if_neg (by omega)]

/-- Witness for C8: order 3 of a `max_order = 5` shape constructs, and the
construction's order is in range. -/
theorem FinalFitsPdf_init_order_range_witness :
    (3 : ℤ) = 3 ∧ 1 ≤ (3 : ℤ) ∧ (3 : ℤ) ≤ ((5 : ℕ) : ℤ) :=
  (FinalFitsPdf_init_order_range 5 3).2 3 (by rfl)

end FinalFits
